import Mathlib

/-!
A shallow embedding of `TONoo1/TONoo1.py`, the 1-out-of-N Oblivious Transfer
implementation, together with theorems settling the specification claims.

Modelling conventions:

* Python byte strings are `List Nat` (one `Nat` per byte); Python `str` values
  are identified with their UTF-8 byte encodings (UTF-8 encoding is injective,
  and `.encode('utf8')` / `.decode()` become the identity in the model).
* The Ed25519 prime-order subgroup (order `L`, a 253-bit prime) is cyclic, so
  it is modelled by its discrete logarithms: `Point := ZMod L`, with the base
  point `B = 1`.  Every point the program manipulates lies in this subgroup.
  A 32-byte wire field that should hold a point encoding is modelled as
  `Option Point`: `some P` for the canonical encoding of the subgroup point
  `P`, `none` for any byte string that is not a valid encoding (not on the
  curve, non-canonical, or of small order but distinct from the identity —
  libsodium's `crypto_scalarmult_ed25519` rejects all of these alike).
* `crypto_scalarmult_ed25519` clamps its 32-byte scalar argument
  (clear bits 0,1,2 and 255, set bit 254) before multiplying; `clampNat`
  reproduces this on the little-endian value.  libsodium additionally rejects
  a multiplication whose *result* is the identity; a clamped scalar lies in
  `[2^254, 2^255)` and is divisible by 8, hence is never divisible by the odd
  prime `L` (see `clampNat_mod_L_ne_zero`), so on a non-identity input of the
  prime-order subgroup that rejection can never fire and it is omitted from
  the model.
* The external cryptographic primitives of `pynacl`/`hashlib` (keyed Blake2b,
  the canonical point encoding, and the XSalsa20-Poly1305 secretbox) are not
  code of this repository; they are modelled as an opaque parameter `Crypto`,
  with their contracts (`openBox ∘ seal = id` under the same key, injectivity
  idealisations for the keyed hash) taken as explicit hypotheses where a
  theorem needs them.
* Python exceptions become `Except PyError`; a function that mutates state
  returns the mutated state alongside its result (`Sender.retrieve` mutates
  the caller's entry dicts in place, so it returns the updated entry list even
  when it raises).
* Python dicts are insertion-ordered association lists: assignment to an
  existing key overwrites in place, a new key is appended at the end.
-/

namespace TONoo1

/-- A Python byte string: one `Nat` per byte. -/
abbrev Bytes := List Nat

/-- The order of the Ed25519 prime-order subgroup. -/
def L : Nat := 2 ^ 252 + 27742317777372353535851937790883648493

/-- A point of the prime-order subgroup, represented by its discrete
logarithm with respect to the base point `B` (so `B` itself is `1`). -/
abbrev Point := ZMod L

/-- Little-endian value of a byte string (first byte least significant),
as libsodium interprets 32-byte scalars. -/
def leVal : Bytes → Nat
  | [] => 0
  | b :: rest => b + 256 * leVal rest

/-- Ed25519 scalar clamping applied by `crypto_scalarmult_ed25519`:
clear bits 0, 1, 2 and 255, set bit 254. -/
def clampNat (n : Nat) : Nat := 2 ^ 254 + 8 * (n % 2 ^ 254 / 8)

/-- The clamped scalar value of a byte string, as an exponent acting on the
prime-order subgroup. -/
def clampP (s : Bytes) : Point := ((clampNat (leVal s) : Nat) : Point)

/-- The errors (Python exceptions) the embedded code can raise. -/
inductive PyError
  /-- `nacl` raises `TypeError`: a scalar argument is not exactly 32 bytes. -/
  | badScalarLength
  /-- `nacl` raises on a point encoding rejected by libsodium (invalid,
  non-canonical, or of small order, the identity included). -/
  | invalidPoint
  /-- Python `KeyError`: a dict lookup found no such key. -/
  | keyError (k : Bytes)
  /-- `nacl.exceptions.CryptoError`: secretbox authentication failed. -/
  | authFailed
deriving DecidableEq

/-- Model of `crypto_scalarmult_ed25519_base`: requires a 32-byte scalar,
clamps it and multiplies the base point (`B = 1` in the model). -/
def scalarmultBase (s : Bytes) : Except PyError Point :=
  if s.length = 32 then .ok (clampP s)
  else .error .badScalarLength

/-- Model of `crypto_scalarmult_ed25519`: requires a 32-byte scalar and a
valid point encoding that is not of small order (`some P` with `P ≠ 0`),
clamps the scalar and multiplies. -/
def scalarmult (s : Bytes) (p : Option Point) : Except PyError Point :=
  if s.length = 32 then
    match p with
    | none => .error .invalidPoint
    | some P => if P = 0 then .error .invalidPoint
                else .ok (clampP s * P)
  else .error .badScalarLength

/-- Left-pad a UTF-8 index encoding with zero bytes to 32 bytes, as in
`b'\x00' * (32 - len(entryIndexBytes)) + entryIndexBytes`.  For inputs longer
than 32 bytes the pad is empty (Python's `b'\x00' * negative == b''`) and the
result keeps its oversize length. -/
def padIndex (idx : Bytes) : Bytes := List.replicate (32 - idx.length) 0 ++ idx

/-- The external primitives of `pynacl`/`hashlib`, opaque to this repository:
keyed Blake2b with 32-byte digests, the canonical 32-byte point encoding, and
the XSalsa20-Poly1305 secretbox (`sealBox` takes the internally drawn random
nonce as an explicit argument; `openBox` is `SecretBox(...).decrypt`,
returning `none` where Python raises `CryptoError`). -/
structure Crypto where
  blake2b32 : Bytes → Bytes → Bytes
  encodePoint : Point → Bytes
  sealBox : Bytes → Bytes → Bytes → Bytes
  openBox : Bytes → Bytes → Option Bytes

/-- Model of `calcMac`: the keyed Blake2b hash with
`digest_size = nacl.public.PrivateKey.SIZE = 32`. -/
def calcMac (cr : Crypto) (inputBytes : Bytes) (keyBytes : Bytes) : Bytes :=
  cr.blake2b32 inputBytes keyBytes

/-- The module-level constant `CONCEAL_RESPONSE_INDICES = True`. -/
def CONCEAL_RESPONSE_INDICES : Bool := true

/-- An insertion-ordered Python dict with byte-string (or string) keys. -/
abbrev Dict (β : Type) : Type := List (Bytes × β)

/-- Python dict lookup: the value stored at a key, if present. -/
def dictLookup {β : Type} : Dict β → Bytes → Option β
  | [], _ => none
  | (k, v) :: rest, a => if k = a then some v else dictLookup rest a

/-- Python dict assignment `d[k] = v`: overwrite in place if the key exists,
otherwise append at the end. -/
def dictInsert {β : Type} : Dict β → Bytes → β → Dict β
  | [], k, v => [(k, v)]
  | (k', v') :: rest, k, v =>
      if k' = k then (k', v) :: rest else (k', v') :: dictInsert rest k v

/-- An entry passed to `Sender.retrieve`: a Python dict with keys `'index'`
(a string, identified with its UTF-8 bytes), `'value'` (a string), and the
optional cached `'indexOTU'` point. -/
structure Entry where
  index : Bytes
  value : Bytes
  indexOTU : Option Point
deriving DecidableEq

/-- The state of a `Receiver`: the Sender key given to `__init__` (a wire
field, hence possibly invalid) and the private dict `__otSecrets` mapping a
chosen index to the shared secret point stored for it. -/
structure Receiver where
  senderOTKey : Option Point
  otSecrets : Dict Point
deriving DecidableEq

/-- Model of `Receiver.__init__`: store the key, start with empty secrets. -/
def mkReceiver (senderOTKey : Option Point) : Receiver :=
  ⟨senderOTKey, []⟩

/-- Model of `Receiver.getRequestOTKey`.  The fresh 32-byte randomness `sk`
(drawn by `nacl.utils.random` in the source) is an explicit argument.  The
result is paired with the Receiver state after the call; note the source
stores the new secret in `__otSecrets` *before* the final scalar
multiplication, so the store survives a failure of that multiplication. -/
def getRequestOTKey (r : Receiver) (entryIndex : Bytes) (sk : Bytes) :
    Except PyError Point × Receiver :=
  match scalarmultBase sk with
  | .error e => (.error e, r)
  | .ok pk =>
    match scalarmult sk r.senderOTKey with
    | .error e => (.error e, r)
    | .ok q =>
      let r' : Receiver := ⟨r.senderOTKey, dictInsert r.otSecrets entryIndex q⟩
      match scalarmult (padIndex entryIndex) r.senderOTKey with
      | .error e => (.error e, r')
      | .ok a => (.ok (a + pk), r')

/-- The loop body bookkeeping of `Receiver.decryptResponse`: walk the stored
secrets in insertion order, look each response index up in `ciphers`
(`KeyError` when absent), decrypt (`CryptoError` on authentication failure)
and accumulate the decoded plaintexts. -/
def decryptLoop (cr : Crypto) (ciphers : Dict Bytes) :
    Dict Point → Dict Bytes → Except PyError (Dict Bytes)
  | [], acc => .ok acc
  | (entryIndex, otSecret) :: rest, acc =>
    let lookupKey :=
      if CONCEAL_RESPONSE_INDICES then calcMac cr entryIndex (cr.encodePoint otSecret)
      else entryIndex
    match dictLookup ciphers lookupKey with
    | none => .error (.keyError lookupKey)
    | some c =>
      match cr.openBox (cr.encodePoint otSecret) c with
      | none => .error .authFailed
      | some m => decryptLoop cr ciphers rest (dictInsert acc entryIndex m)

/-- Model of `Receiver.decryptResponse`.  The method reads `__otSecrets` but
never assigns to it, so the state after the call is the state before it; the
model returns that state explicitly alongside the result. -/
def decryptResponse (cr : Crypto) (r : Receiver) (ciphers : Dict Bytes) :
    Except PyError (Dict Bytes) × Receiver :=
  (decryptLoop cr ciphers r.otSecrets [], r)

/-- The state of a `Sender` as established by `__init__`. -/
structure Sender where
  senderOTSecret : Bytes
  senderOTKey : Point
  senderOTU : Point
deriving DecidableEq

/-- Model of `Sender.__init__` with the 32-byte randomness `y` (drawn by
`nacl.utils.random` in the source) as an explicit argument:
`S = clamp(y)·B` and `U = clamp(y)·S`. -/
def mkSender (y : Bytes) : Except PyError Sender :=
  match scalarmultBase y with
  | .error e => .error e
  | .ok S =>
    match scalarmult y (some S) with
    | .error e => .error e
    | .ok U => .ok ⟨y, S, U⟩

/-- Model of `Sender.register`: return the public OT key. -/
def register (s : Sender) : Point := s.senderOTKey

/-- The `try/except` of the entry loop in `Sender.retrieve`: use the cached
`'indexOTU'` if the key is present, otherwise compute
`crypto_scalarmult_ed25519(pad(index), senderOTU)`. -/
def getOTU (U : Point) (e : Entry) : Except PyError Point :=
  match e.indexOTU with
  | some v => .ok v
  | none => scalarmult (padIndex e.index) (some U)

/-- The entry loop of `Sender.retrieve`.  `i` numbers the entries so that
entry `i` encrypts under the random nonce `nonces i`; `C` is the cipher dict
built so far and `done` the already processed (mutated) entries.  On an error
the entries mutated so far keep their mutation (the source mutates the
caller's dicts in place), and no cipher dict is returned. -/
def retrieveLoop (cr : Crypto) (T U : Point) (nonces : Nat → Bytes) :
    List Entry → Nat → Dict Bytes → List Entry →
    Except PyError (Dict Bytes) × List Entry
  | [], _, C, done => (.ok C, done)
  | e :: rest, i, C, done =>
    match getOTU U e with
    | .error err => (.error err, done ++ e :: rest)
    | .ok otu =>
      let e' : Entry := ⟨e.index, e.value, some otu⟩
      let K := T - otu
      let c := cr.sealBox (cr.encodePoint K) (nonces i) e.value
      let key :=
        if CONCEAL_RESPONSE_INDICES then calcMac cr e.index (cr.encodePoint K)
        else e.index
      retrieveLoop cr T U nonces rest (i + 1) (dictInsert C key c) (done ++ [e'])

/-- Model of `Sender.retrieve`.  `requestOTKey` is the wire field from the
params dict; `nonces` supplies the random secretbox nonce for each entry.
The method assigns to no attribute of `self`, so the Sender is read only; the
second component is the caller's entry list after the call, carrying the
in-place `'indexOTU'` mutations whether or not the call raised. -/
def retrieve (cr : Crypto) (s : Sender) (requestOTKey : Option Point)
    (entries : List Entry) (nonces : Nat → Bytes) :
    Except PyError (Dict Bytes) × List Entry :=
  match scalarmult s.senderOTSecret requestOTKey with
  | .error e => (.error e, entries)
  | .ok T => retrieveLoop cr T s.senderOTU nonces entries 0 [] []

/-! Characterisation helpers.  These re-express single iterations of the
loops above as standalone functions, so that theorems can speak about the
value the loop computes for one entry.  They are connected to the loop
functions by the lemmas below, never assumed. -/

/-- The `indexOTU` point the entry loop ends up using for an entry: the
cached value if present, otherwise `clamp(pad(index))·U`. -/
def otuVal (U : Point) (e : Entry) : Point :=
  match e.indexOTU with
  | some v => v
  | none => clampP (padIndex e.index) * U

/-- The per-entry key point `K = T − indexOTU` of the entry loop. -/
def keyOf (T U : Point) (e : Entry) : Point := T - otuVal U e

/-- The response index under which the entry loop files an entry's
ciphertext: the keyed MAC of the index when concealment is on, the plain
index otherwise. -/
def respIndex (cr : Crypto) (T U : Point) (e : Entry) : Bytes :=
  if CONCEAL_RESPONSE_INDICES then calcMac cr e.index (cr.encodePoint (keyOf T U e))
  else e.index

/-- An entry as the loop leaves it: unchanged except that `indexOTU` now
caches the value used. -/
def processedEntry (U : Point) (e : Entry) : Entry :=
  ⟨e.index, e.value, some (otuVal U e)⟩

/-- The cipher dict built by a complete successful run of the entry loop
over `pending`, numbering nonces from `i` and starting from `C`. -/
def loopDict (cr : Crypto) (T U : Point) (nonces : Nat → Bytes) :
    List Entry → Nat → Dict Bytes → Dict Bytes
  | [], _, C => C
  | e :: rest, i, C =>
      loopDict cr T U nonces rest (i + 1)
        (dictInsert C (respIndex cr T U e)
          (cr.sealBox (cr.encodePoint (keyOf T U e)) (nonces i) e.value))

/-- The successful value of an `Except`, if any. -/
def okValue {α : Type} : Except PyError α → Option α
  | .ok a => some a
  | .error _ => none

/-- The value stored in an entry list for a given index: the `value` of the
first entry carrying that `index`. -/
def findValue : List Entry → Bytes → Option Bytes
  | [], _ => none
  | e :: rest, idx => if e.index = idx then some e.value else findValue rest idx

/-- Contract of the secretbox primitives: decrypting with the sealing key
recovers the plaintext, whatever nonce was drawn. -/
def SealOpenId (cr : Crypto) : Prop :=
  ∀ k n m, cr.openBox k (cr.sealBox k n m) = some m

/-- Idealisation of the keyed hash: a digest determines the hashed input.
For the real Blake2b this is collision resistance on the first argument. -/
def MacIdxInjective (cr : Crypto) : Prop :=
  ∀ a b c d, cr.blake2b32 a b = cr.blake2b32 c d → a = c

/-- Idealisation of the keyed hash: a digest determines input and key.
For the real Blake2b this is full collision resistance. -/
def MacInjective (cr : Crypto) : Prop :=
  ∀ a b c d, cr.blake2b32 a b = cr.blake2b32 c d → a = c ∧ b = d

/-! Concrete material for witnesses.  `cryptoW` is a small injective stand-in
for the opaque primitives, used only to evaluate witness statements; it is
not Blake2b or XSalsa20-Poly1305. -/

/-- An injective code of byte strings as numbers, built from the Cantor
pairing function. -/
def natOfList : Bytes → Nat
  | [] => 0
  | a :: rest => Nat.pair a (natOfList rest) + 1

/-- A concrete instance of the primitive interface for evaluating witnesses:
the keyed hash pairs the codes of input and key, a point encodes as its
canonical residue, and sealing prepends the key and nonce codes. -/
def cryptoW : Crypto :=
  ⟨fun input key => [natOfList input, natOfList key],
   fun p => [p.val],
   fun k n m => natOfList k :: natOfList n :: m,
   fun k c =>
     match c with
     | k' :: _ :: m => if k' = natOfList k then some m else none
     | _ => none⟩

/-- Witness Sender randomness: 32 bytes of little-endian value 1. -/
def yW : Bytes := 1 :: List.replicate 31 0

/-- Witness Receiver randomness: 32 bytes of little-endian value 2. -/
def xW : Bytes := 2 :: List.replicate 31 0

/-- A second witness Receiver randomness whose clamped scalar differs from
that of `xW` (clamping clears the low three bits, so the first byte must
differ above them). -/
def x2W : Bytes := 8 :: List.replicate 31 0

/-- Receiver randomness crafted so that, against the Sender built from `yW`
and for the chosen index `[0]`, the request key comes out as the identity
point: `clamp(pad [0]) * clamp(yW) + clamp(xBadW) ≡ 0 (mod L)`. -/
def xBadW : Bytes :=
  [216, 8, 134, 54, 120, 176, 179, 145, 212, 180, 50, 238, 146, 167, 190, 38,
   26, 164, 128, 222, 194, 56, 17, 35, 92, 246, 60, 72, 238, 107, 198, 100]

/-- Witness index: the one-byte string containing `'a'`. -/
def idxW : Bytes := [97]

/-- Witness index for the identity-point counterexample: the one-byte string
containing the NUL character, whose padded scalar is zero. -/
def idxZeroW : Bytes := [0]

/-- A 33-byte index, one byte too long. -/
def idxLongW : Bytes := List.replicate 33 97

/-- Witness value bytes. -/
def valW : Bytes := [104, 105]

/-- A second witness value. -/
def val2W : Bytes := [111, 107]

/-- Witness nonce supply: entry `i` draws the one-byte nonce `[i]`. -/
def noncesW : Nat → Bytes := fun i => [i]

/-- The witness Sender, as `mkSender yW` produces it. -/
def senderW : Sender := ⟨yW, clampP yW, clampP yW * clampP yW⟩

/-- The witness Receiver right after construction from `senderW`'s key. -/
def recvW : Receiver := mkReceiver (some (register senderW))

/-- The request key the witness Receiver computes for `idxW` with
randomness `xW`. -/
def reqW : Point := clampP (padIndex idxW) * clampP yW + clampP xW

/-- The witness Receiver state after building the request for `idxW`:
the shared secret `clamp(xW)·S` is stored under `idxW`. -/
def recv1W : Receiver := ⟨some (clampP yW), [(idxW, clampP xW * clampP yW)]⟩

/-- The cipher map the witness Sender produces for the witness request. -/
def ciphersW : Dict Bytes :=
  (okValue (retrieve cryptoW senderW (some reqW) [⟨idxW, valW, none⟩] noncesW).1).getD []

/-- The result mapping the witness Receiver decrypts from `ciphersW`. -/
def decW : Dict Bytes :=
  (okValue (decryptResponse cryptoW recv1W ciphersW).1).getD []

/-! Arithmetic facts about the group order and clamping. -/

instance : NeZero L := ⟨by norm_num [L]⟩

theorem clampNat_lo (n : Nat) : 2 ^ 254 ≤ clampNat n := Nat.le_add_right _ _

theorem clampNat_hi (n : Nat) : clampNat n < 2 ^ 255 := by
  have h1 : n % 2 ^ 254 < 2 ^ 254 := Nat.mod_lt _ (by norm_num)
  have h2 : n % 2 ^ 254 / 8 < 2 ^ 251 := by
    rw [Nat.div_lt_iff_lt_mul (by norm_num : 0 < 8)]
    calc n % 2 ^ 254 < 2 ^ 254 := h1
    _ ≤ 2 ^ 251 * 8 := by norm_num
  calc clampNat n = 2 ^ 254 + 8 * (n % 2 ^ 254 / 8) := rfl
  _ < 2 ^ 254 + 8 * 2 ^ 251 :=
      Nat.add_lt_add_left (Nat.mul_lt_mul_of_pos_left h2 (by norm_num)) _
  _ = 2 ^ 255 := by norm_num

theorem clampNat_mod_eight (n : Nat) : clampNat n % 8 = 0 := by
  have h : clampNat n = 2 ^ 254 + 8 * (n % 2 ^ 254 / 8) := rfl
  rw [h, Nat.add_mul_mod_self_left]
  norm_num

/-- A clamped scalar lies in `[2^254, 2^255)` and is divisible by 8, while
every multiple of the odd number `L` in that window is an odd multiple times
a power of two smaller than 8; hence `L` never divides a clamped scalar. -/
theorem clampNat_mod_L_ne_zero (n : Nat) : ¬ L ∣ clampNat n := by
  rintro ⟨k, hk⟩
  have hlo := clampNat_lo n
  have hhi := clampNat_hi n
  have h8 := clampNat_mod_eight n
  rw [hk] at hlo hhi h8
  have hk4 : 4 ≤ k := by
    by_contra h
    push_neg at h
    have h2 : L * k ≤ L * 3 := Nat.mul_le_mul_left _ (by omega)
    have h3 : L * 3 < 2 ^ 254 := by norm_num [L]
    omega
  have hk7 : k ≤ 7 := by
    by_contra h
    push_neg at h
    have h2 : L * 8 ≤ L * k := Nat.mul_le_mul_left _ (by omega)
    have h3 : 2 ^ 255 < L * 8 := by norm_num [L]
    omega
  interval_cases k <;> norm_num [L] at h8

/-- No clamped scalar is zero in the exponent group. -/
theorem clampP_ne_zero (s : Bytes) : clampP s ≠ 0 := by
  rw [clampP, Ne, ZMod.natCast_zmod_eq_zero_iff_dvd]
  exact clampNat_mod_L_ne_zero (leVal s)

/-! Characterisation of the primitive wrappers. -/

theorem scalarmultBase_ok (s : Bytes) (h : s.length = 32) :
    scalarmultBase s = .ok (clampP s) := by
  simp [scalarmultBase, h]

theorem scalarmult_ok (s : Bytes) (P : Point) (h : s.length = 32) (hP : P ≠ 0) :
    scalarmult s (some P) = .ok (clampP s * P) := by
  simp [scalarmult, h, hP]

theorem padIndex_length (idx : Bytes) (h : idx.length ≤ 32) :
    (padIndex idx).length = 32 := by
  simp [padIndex]
  omega

theorem padIndex_length_long (idx : Bytes) (h : 32 < idx.length) :
    (padIndex idx).length = idx.length := by
  simp [padIndex]
  omega

theorem mkSender_eq (y : Bytes) (h : y.length = 32) :
    mkSender y = .ok ⟨y, clampP y, clampP y * clampP y⟩ := by
  rw [mkSender, scalarmultBase_ok y h]
  simp only [scalarmult_ok y (clampP y) h (clampP_ne_zero y)]

/-! Dict lemmas: Python dict assignment and lookup. -/

theorem dictLookup_insert_self {β : Type} (d : Dict β) (k : Bytes) (v : β) :
    dictLookup (dictInsert d k v) k = some v := by
  induction d with
  | nil => simp [dictInsert, dictLookup]
  | cons p rest ih =>
    by_cases h : p.1 = k
    · simp [dictInsert, h, dictLookup]
    · simp [dictInsert, h, dictLookup, ih]

theorem dictLookup_insert_ne {β : Type} (d : Dict β) (k a : Bytes) (v : β)
    (h : k ≠ a) : dictLookup (dictInsert d k v) a = dictLookup d a := by
  induction d with
  | nil => simp [dictInsert, dictLookup, h]
  | cons p rest ih =>
    by_cases hp : p.1 = k
    · simp [dictInsert, hp, dictLookup, h]
    · simp [dictInsert, hp, dictLookup, ih]

theorem dictLookup_insert_isSome {β : Type} (d : Dict β) (k a : Bytes) (v : β)
    (h : (dictLookup d a).isSome) :
    (dictLookup (dictInsert d k v) a).isSome := by
  by_cases hk : k = a
  · rw [hk, dictLookup_insert_self]
    rfl
  · rwa [dictLookup_insert_ne d k a v hk]

/-! Characterisation of the request builder and the entry loop. -/

theorem getRequestOTKey_ok (r : Receiver) (idx sk : Bytes) (S : Point)
    (hsk : sk.length = 32) (hidx : idx.length ≤ 32)
    (hkey : r.senderOTKey = some S) (hS : S ≠ 0) :
    getRequestOTKey r idx sk =
      (.ok (clampP (padIndex idx) * S + clampP sk),
       ⟨r.senderOTKey, dictInsert r.otSecrets idx (clampP sk * S)⟩) := by
  rw [getRequestOTKey, scalarmultBase_ok sk hsk, hkey]
  simp only [scalarmult_ok sk S hsk hS,
    scalarmult_ok (padIndex idx) S (padIndex_length idx hidx) hS]

theorem getOTU_ok (U : Point) (e : Entry) (hU : U ≠ 0)
    (h : e.indexOTU = none → e.index.length ≤ 32) :
    getOTU U e = .ok (otuVal U e) := by
  match he : e.indexOTU with
  | some v => rw [getOTU, he, otuVal, he]
  | none =>
    rw [getOTU, he, otuVal, he,
      scalarmult_ok (padIndex e.index) U (padIndex_length e.index (h he)) hU]

theorem retrieveLoop_ok (cr : Crypto) (T U : Point) (nonces : Nat → Bytes)
    (pending : List Entry) (hU : U ≠ 0)
    (h : ∀ e ∈ pending, e.indexOTU = none → e.index.length ≤ 32) :
    ∀ i C done, retrieveLoop cr T U nonces pending i C done =
      (.ok (loopDict cr T U nonces pending i C),
       done ++ pending.map (processedEntry U)) := by
  induction pending with
  | nil => intro i C done; simp [retrieveLoop, loopDict]
  | cons e rest ih =>
    intro i C done
    rw [retrieveLoop, getOTU_ok U e hU (h e (List.mem_cons_self e rest))]
    have hrest : ∀ e' ∈ rest, e'.indexOTU = none → e'.index.length ≤ 32 :=
      fun e' he' => h e' (List.mem_cons_of_mem e he')
    simp only [ih hrest]
    rw [loopDict]
    simp [processedEntry, respIndex, keyOf]

theorem retrieve_ok (cr : Crypto) (s : Sender) (R : Point)
    (entries : List Entry) (nonces : Nat → Bytes)
    (hlen : s.senderOTSecret.length = 32) (hR : R ≠ 0) (hU : s.senderOTU ≠ 0)
    (h : ∀ e ∈ entries, e.indexOTU = none → e.index.length ≤ 32) :
    retrieve cr s (some R) entries nonces =
      (.ok (loopDict cr (clampP s.senderOTSecret * R) s.senderOTU nonces entries 0 []),
       entries.map (processedEntry s.senderOTU)) := by
  rw [retrieve]
  simp only [scalarmult_ok s.senderOTSecret R hlen hR]
  rw [retrieveLoop_ok cr _ s.senderOTU nonces entries hU h]
  rfl

/-! Lookup in the cipher dict a successful entry loop builds. -/

theorem dictLookup_loopDict_absent (cr : Crypto) (T U : Point)
    (nonces : Nat → Bytes) (pending : List Entry) (kstar : Bytes)
    (habs : ∀ e ∈ pending, respIndex cr T U e ≠ kstar) :
    ∀ i C, dictLookup (loopDict cr T U nonces pending i C) kstar =
      dictLookup C kstar := by
  induction pending with
  | nil => intro i C; rw [loopDict]
  | cons e rest ih =>
    intro i C
    rw [loopDict, ih (fun e' he' => habs e' (List.mem_cons_of_mem e he')),
      dictLookup_insert_ne _ _ _ _ (habs e (List.mem_cons_self e rest))]

theorem dictLookup_loopDict_unique (cr : Crypto) (T U : Point)
    (nonces : Nat → Bytes) (pending : List Entry) (kstar : Bytes) (e : Entry)
    (he : e ∈ pending) (hk : respIndex cr T U e = kstar)
    (huniq : ∀ e' ∈ pending, respIndex cr T U e' = kstar → e' = e) :
    ∀ i C, ∃ n, dictLookup (loopDict cr T U nonces pending i C) kstar =
      some (cr.sealBox (cr.encodePoint (keyOf T U e)) n e.value) := by
  induction pending with
  | nil => cases he
  | cons e1 rest ih =>
    intro i C
    rw [loopDict]
    by_cases hrest : ∃ e' ∈ rest, respIndex cr T U e' = kstar
    · obtain ⟨e', he', hk'⟩ := hrest
      have hee : e' = e := huniq e' (List.mem_cons_of_mem e1 he') hk'
      subst hee
      exact ih he' (fun e'' he'' hk'' => huniq e'' (List.mem_cons_of_mem e1 he'') hk'') _ _
    · push_neg at hrest
      by_cases h1 : respIndex cr T U e1 = kstar
      · have he1 : e1 = e := huniq e1 (List.mem_cons_self e1 rest) h1
        subst he1
        refine ⟨nonces i, ?_⟩
        rw [dictLookup_loopDict_absent cr T U nonces rest kstar hrest,
          ← h1, dictLookup_insert_self]
      · have he' : e ∈ rest := by
          rcases List.mem_cons.mp he with h | h
          · exact absurd (h ▸ hk) h1
          · exact h
        exact ih he' (fun e'' he'' hk'' => huniq e'' (List.mem_cons_of_mem e1 he'') hk'') _ _

theorem findValue_eq_some (E : List Entry) (idx : Bytes) (v : Bytes)
    (h : findValue E idx = some v) :
    ∃ e ∈ E, e.index = idx ∧ e.value = v := by
  induction E with
  | nil => cases h
  | cons e rest ih =>
    rw [findValue] at h
    by_cases he : e.index = idx
    · rw [if_pos he] at h
      exact ⟨e, List.mem_cons_self e rest, he, Option.some.inj h⟩
    · rw [if_neg he] at h
      obtain ⟨e', he', h1, h2⟩ := ih h
      exact ⟨e', List.mem_cons_of_mem e he', h1, h2⟩

theorem conceal_true : CONCEAL_RESPONSE_INDICES = true := rfl

/-- Auxiliary round-trip lemma, stated over an arbitrary already unpacked
Sender secret `y`: building a request for `idx`, retrieving against it and
decrypting yields the stored value at `idx`. -/
theorem roundTrip_aux (cr : Crypto) (hseal : SealOpenId cr)
    (hmac : MacIdxInjective cr) (y sk : Bytes)
    (idx v : Bytes) (E : List Entry) (nonces : Nat → Bytes)
    (hy : y.length = 32)
    (hU : clampP y * clampP y ≠ 0)
    (hE : ∀ e ∈ E, e.index.length ≤ 32)
    (hfresh : ∀ e ∈ E, e.indexOTU = none)
    (hnodup : (E.map Entry.index).Nodup)
    (hv : findValue E idx = some v)
    (hR : clampP (padIndex idx) * clampP y + clampP sk ≠ 0) :
    ∃ C E' D,
      retrieve cr ⟨y, clampP y, clampP y * clampP y⟩
        (some (clampP (padIndex idx) * clampP y + clampP sk)) E nonces = (.ok C, E') ∧
      (decryptResponse cr ⟨some (clampP y), [(idx, clampP sk * clampP y)]⟩ C).1 = .ok D ∧
      dictLookup D idx = some v := by
  obtain ⟨estar, hestar, hisidx, hisval⟩ := findValue_eq_some E idx v hv
  rw [retrieve_ok cr _ _ E nonces hy hR hU (fun e he _ => hE e he)]
  dsimp only
  have hkeyQ : keyOf (clampP y * (clampP (padIndex idx) * clampP y + clampP sk))
      (clampP y * clampP y) estar = clampP sk * clampP y := by
    simp only [keyOf, otuVal, hfresh estar hestar, hisidx]
    ring
  have hkstar : respIndex cr (clampP y * (clampP (padIndex idx) * clampP y + clampP sk))
      (clampP y * clampP y) estar =
      calcMac cr idx (cr.encodePoint (clampP sk * clampP y)) := by
    rw [respIndex, if_pos conceal_true, hisidx, hkeyQ]
  have huniq : ∀ e' ∈ E,
      respIndex cr (clampP y * (clampP (padIndex idx) * clampP y + clampP sk))
        (clampP y * clampP y) e' =
        calcMac cr idx (cr.encodePoint (clampP sk * clampP y)) → e' = estar := by
    intro e' he' hk'
    rw [respIndex, if_pos conceal_true] at hk'
    have hidx' : e'.index = idx := hmac _ _ _ _ hk'
    exact List.inj_on_of_nodup_map hnodup he' hestar (by rw [hidx', hisidx])
  obtain ⟨n, hlook⟩ := dictLookup_loopDict_unique cr _ _ nonces E _ estar hestar
    hkstar huniq 0 []
  rw [hkeyQ, hisval] at hlook
  refine ⟨_, _, [(idx, v)], rfl, ?_, by rw [dictLookup, if_pos rfl]⟩
  rw [decryptResponse]
  show decryptLoop cr _ [(idx, clampP sk * clampP y)] [] = _
  rw [decryptLoop, if_pos conceal_true, hlook]
  simp only [decryptLoop, dictInsert]
  rw [hseal (cr.encodePoint (clampP sk * clampP y)) n v]

/-- C1 (amended): round-trip correctness for every request key that is not
the identity point.  For all Sender randomness `y`, fresh entry lists `E`
with pairwise-distinct indices of at most 32 UTF-8 bytes, chosen index `idx`
occurring in `E`, and Receiver randomness `sk`, if the request key built for
`idx` is accepted by the Sender (it is not the identity point — the
counterexample shows one `sk` where it is), decrypting the retrieved cipher
map yields the value stored in `E` at `idx`.  The secretbox contract and the
collision-freeness of the keyed hash are hypotheses on the opaque
primitives, and `hU` discharges a model artefact (it holds in reality since
the group order is prime). -/
theorem roundTrip_correct (cr : Crypto) (hseal : SealOpenId cr)
    (hmac : MacIdxInjective cr) (y sk : Bytes) (s : Sender)
    (idx v : Bytes) (E : List Entry) (nonces : Nat → Bytes)
    (R : Point) (r1 : Receiver)
    (hy : y.length = 32) (hsk : sk.length = 32)
    (hs : mkSender y = .ok s) (hU : s.senderOTU ≠ 0)
    (hE : ∀ e ∈ E, e.index.length ≤ 32)
    (hfresh : ∀ e ∈ E, e.indexOTU = none)
    (hnodup : (E.map Entry.index).Nodup)
    (hv : findValue E idx = some v)
    (hreq : getRequestOTKey (mkReceiver (some (register s))) idx sk = (.ok R, r1))
    (hR : R ≠ 0) :
    ∃ C E' D,
      retrieve cr s (some R) E nonces = (.ok C, E') ∧
      (decryptResponse cr r1 C).1 = .ok D ∧
      dictLookup D idx = some v := by
  rw [mkSender_eq y hy] at hs
  injection hs with hs
  subst hs
  obtain ⟨estar, hestar, hisidx, hisval⟩ := findValue_eq_some E idx v hv
  have hidxlen : idx.length ≤ 32 := hisidx ▸ hE estar hestar
  rw [getRequestOTKey_ok _ idx sk (clampP y) hsk hidxlen rfl (clampP_ne_zero y)] at hreq
  injection hreq with hR1 hr1
  injection hR1 with hR1
  subst hR1
  subst hr1
  have h := roundTrip_aux cr hseal hmac y sk idx v E nonces hy hU hE hfresh
    hnodup hv hR
  simpa [mkReceiver, dictInsert] using h

/-! Properties of the concrete witness primitives. -/

theorem natOfList_injective : Function.Injective natOfList := by
  intro a b h
  induction a generalizing b with
  | nil =>
    cases b with
    | nil => rfl
    | cons y ys => simp [natOfList] at h
  | cons x xs ih =>
    cases b with
    | nil => simp [natOfList] at h
    | cons y ys =>
      simp only [natOfList, Nat.add_right_cancel_iff, Nat.pair_eq_pair] at h
      rw [h.1, ih h.2]

theorem cryptoW_sealOpen : SealOpenId cryptoW := by
  intro k n m
  simp [cryptoW]

theorem cryptoW_macIdxInjective : MacIdxInjective cryptoW := by
  intro a b c d h
  simp only [cryptoW, List.cons.injEq, and_true] at h
  exact natOfList_injective h.1

theorem cryptoW_macInjective : MacInjective cryptoW := by
  intro a b c d h
  simp only [cryptoW, List.cons.injEq, and_true] at h
  exact ⟨natOfList_injective h.1, natOfList_injective h.2⟩

theorem cryptoW_encodeInjective : Function.Injective cryptoW.encodePoint := by
  intro a b h
  simp only [cryptoW, List.cons.injEq, and_true] at h
  exact ZMod.val_injective L h

/-- C1 counterexample: the claim quantifies over every Receiver randomness,
but for the Sender built from `yW`, the chosen index `"\x00"` and the
randomness `xBadW`, the request key `build_request` returns is the identity
point, which the Sender's `crypto_scalarmult_ed25519` rejects — `retrieve`
raises instead of returning a cipher map, so no decryption can yield the
stored value. -/
theorem roundTrip_identity_counterexample :
    okValue (getRequestOTKey (mkReceiver (some (register senderW))) idxZeroW xBadW).1
      = some 0 ∧
    (retrieve cryptoW senderW (some 0) [⟨idxZeroW, valW, none⟩] noncesW).1
      = .error .invalidPoint := by
  constructor
  · decide
  · rfl

/-- Witness for the amended C1 at concrete inputs: Sender `yW`, Receiver
randomness `xW`, two entries, chosen index `[97]`. -/
theorem roundTrip_correct_witness :
    ∃ C E' D,
      retrieve cryptoW senderW (some reqW)
        [⟨idxW, valW, none⟩, ⟨[98], val2W, none⟩] noncesW = (.ok C, E') ∧
      (decryptResponse cryptoW recv1W C).1 = .ok D ∧
      dictLookup D idxW = some valW :=
  roundTrip_correct cryptoW cryptoW_sealOpen cryptoW_macIdxInjective yW xW senderW
    idxW valW [⟨idxW, valW, none⟩, ⟨[98], val2W, none⟩] noncesW reqW recv1W
    (by decide) (by decide) rfl (by decide) (by decide) (by decide) (by decide)
    (by decide) rfl (by decide)

/-- C2 (amended): `retrieve` performs no duplicate-index check.  With two
fresh entries sharing one index the call raises nothing: both entries derive
the same response index and the later ciphertext overwrites the earlier, so
the returned map holds exactly one ciphertext for the shared index — that of
the later entry. -/
theorem retrieve_duplicate_overwrites (cr : Crypto) (y : Bytes) (R : Point)
    (e1 e2 : Entry) (nonces : Nat → Bytes)
    (hy : y.length = 32) (hR : R ≠ 0) (hU : clampP y * clampP y ≠ 0)
    (hidx : e1.index = e2.index) (hlen : e1.index.length ≤ 32)
    (hf1 : e1.indexOTU = none) (hf2 : e2.indexOTU = none) :
    (retrieve cr ⟨y, clampP y, clampP y * clampP y⟩ (some R) [e1, e2] nonces).1 =
      .ok [(respIndex cr (clampP y * R) (clampP y * clampP y) e1,
            cr.sealBox (cr.encodePoint (keyOf (clampP y * R) (clampP y * clampP y) e2))
              (nonces 1) e2.value)] := by
  have hmem : ∀ e ∈ [e1, e2], e.indexOTU = none → e.index.length ≤ 32 := by
    intro e he _
    rcases List.mem_cons.mp he with h | h
    · rw [h]
      exact hlen
    · rw [List.mem_singleton.mp h, ← hidx]
      exact hlen
  rw [retrieve_ok cr _ _ [e1, e2] nonces hy hR hU hmem]
  dsimp only
  have hresp : respIndex cr (clampP y * R) (clampP y * clampP y) e2 =
      respIndex cr (clampP y * R) (clampP y * clampP y) e1 := by
    simp [respIndex, keyOf, otuVal, hf1, hf2, hidx]
  simp only [loopDict, dictInsert, hresp, if_pos rfl]
  norm_num

/-- C2 counterexample: a `retrieve` call whose entry list contains two
entries with the same index string raises no `DuplicateIndex` error — it
returns a cipher map. -/
theorem retrieve_duplicate_counterexample :
    (okValue (retrieve cryptoW senderW (some reqW)
      [⟨idxW, valW, none⟩, ⟨idxW, val2W, none⟩] noncesW).1).isSome = true := by
  decide

/-- Witness for the amended C2 at concrete inputs. -/
theorem retrieve_duplicate_overwrites_witness :
    (retrieve cryptoW senderW (some reqW)
      [⟨idxW, valW, none⟩, ⟨idxW, val2W, none⟩] noncesW).1 =
      .ok [(respIndex cryptoW (clampP yW * reqW) (clampP yW * clampP yW) ⟨idxW, valW, none⟩,
            cryptoW.sealBox (cryptoW.encodePoint (keyOf (clampP yW * reqW)
              (clampP yW * clampP yW) ⟨idxW, val2W, none⟩)) (noncesW 1) val2W)] :=
  retrieve_duplicate_overwrites cryptoW yW reqW ⟨idxW, valW, none⟩ ⟨idxW, val2W, none⟩
    noncesW (by decide) (by decide) (by decide) rfl (by decide) rfl rfl

/-- The entry loop on a list whose first unprocessable entry is `bad` — a
fresh entry with an oversized index: all entries before `bad` are processed
and keep their fresh `indexOTU` caches, then the padding of `bad.index`
leaves an oversized scalar, the scalar multiplication raises, and no cipher
dict is returned. -/
theorem retrieveLoop_error_long (cr : Crypto) (T U : Point) (nonces : Nat → Bytes)
    (pre post : List Entry) (bad : Entry) (hU : U ≠ 0)
    (hpre : ∀ e ∈ pre, e.indexOTU = none → e.index.length ≤ 32)
    (hbadfresh : bad.indexOTU = none) (hbadlen : 32 < bad.index.length) :
    ∀ i C done, retrieveLoop cr T U nonces (pre ++ bad :: post) i C done =
      (.error .badScalarLength, done ++ pre.map (processedEntry U) ++ bad :: post) := by
  induction pre with
  | nil =>
    intro i C done
    have hbad : getOTU U bad = .error .badScalarLength := by
      rw [getOTU, hbadfresh, scalarmult,
        if_neg (by rw [padIndex_length_long bad.index hbadlen]; omega)]
    rw [List.nil_append, retrieveLoop, hbad]
    simp
  | cons e pre' ih =>
    intro i C done
    rw [List.cons_append, retrieveLoop,
      getOTU_ok U e hU (hpre e (List.mem_cons_self e pre'))]
    dsimp only
    rw [ih (fun e' he' => hpre e' (List.mem_cons_of_mem e he'))]
    simp [processedEntry]

/-- C3 (amended): an index whose UTF-8 encoding exceeds 32 bytes is rejected
by both sides, with the proviso the counterexample forces: `getRequestOTKey`
always raises (the oversized padding result is not a valid scalar), and
`retrieve` raises whenever the entry carrying that index does not already
hold a cached `indexOTU` — entries before it are processed first, and a
cached `indexOTU` would bypass the failing computation entirely.  The error
is the scalar-length `TypeError` of the curve library, the code's realisation
of the spec's `InvalidIndex`. -/
theorem oversized_index_rejected (cr : Crypto) (idx sk : Bytes) (r : Receiver)
    (S : Point) (s : Sender) (R : Point) (pre post : List Entry) (bad : Entry)
    (nonces : Nat → Bytes)
    (hlong : 32 < idx.length) (hsk : sk.length = 32)
    (hkey : r.senderOTKey = some S) (hS : S ≠ 0)
    (hlen : s.senderOTSecret.length = 32) (hR : R ≠ 0) (hU : s.senderOTU ≠ 0)
    (hpre : ∀ e ∈ pre, e.indexOTU = none → e.index.length ≤ 32)
    (hbadidx : bad.index = idx) (hbadfresh : bad.indexOTU = none) :
    (getRequestOTKey r idx sk).1 = .error .badScalarLength ∧
    (retrieve cr s (some R) (pre ++ bad :: post) nonces).1 = .error .badScalarLength := by
  constructor
  · rw [getRequestOTKey, scalarmultBase_ok sk hsk, hkey]
    simp only [scalarmult_ok sk S hsk hS]
    rw [scalarmult, if_neg (by rw [padIndex_length_long idx hlong]; omega)]
  · rw [retrieve]
    simp only [scalarmult_ok s.senderOTSecret R hlen hR]
    rw [retrieveLoop_error_long cr _ s.senderOTU nonces pre post bad hU hpre
      hbadfresh (hbadidx ▸ hlong)]

/-- C3 counterexample: `retrieve` does *not* fail on an oversized index when
the entry already carries a cached `indexOTU` — the `try/except` finds the
key, skips the scalar multiplication, and the call returns a cipher map. -/
theorem oversized_cached_counterexample :
    (okValue (retrieve cryptoW senderW (some reqW)
      [⟨idxLongW, valW, some 1⟩] noncesW).1).isSome = true := by
  decide

/-- Witness for the amended C3 at concrete inputs: the 33-byte index
`idxLongW` makes both calls fail with the scalar-length error. -/
theorem oversized_index_rejected_witness :
    (getRequestOTKey recvW idxLongW xW).1 = .error .badScalarLength ∧
    (retrieve cryptoW senderW (some reqW)
      ([⟨idxW, valW, none⟩] ++ ⟨idxLongW, val2W, none⟩ :: []) noncesW).1 =
      .error .badScalarLength :=
  oversized_index_rejected cryptoW idxLongW xW recvW (clampP yW) senderW reqW
    [⟨idxW, valW, none⟩] [] ⟨idxLongW, val2W, none⟩ noncesW
    (by decide) (by decide) rfl (by decide) (by decide) (by decide) (by decide)
    (by decide) rfl rfl

/-- C10: no rollback of input mutation on error.  When `retrieve` fails
partway through its entry loop — here on a fresh entry with an oversized
index after a prefix of processable entries — the `indexOTU` values already
cached on the earlier caller-provided entries during that same call remain
set (`processedEntry` carries the cache), while the call returns an error
and no cipher map. -/
theorem retrieve_no_rollback (cr : Crypto) (s : Sender) (R : Point)
    (pre post : List Entry) (bad : Entry) (nonces : Nat → Bytes)
    (hlen : s.senderOTSecret.length = 32) (hR : R ≠ 0) (hU : s.senderOTU ≠ 0)
    (hpre : ∀ e ∈ pre, e.indexOTU = none → e.index.length ≤ 32)
    (hbadfresh : bad.indexOTU = none) (hbadlen : 32 < bad.index.length) :
    retrieve cr s (some R) (pre ++ bad :: post) nonces =
      (.error .badScalarLength,
       pre.map (processedEntry s.senderOTU) ++ bad :: post) := by
  rw [retrieve]
  simp only [scalarmult_ok s.senderOTSecret R hlen hR]
  rw [retrieveLoop_error_long cr _ s.senderOTU nonces pre post bad hU hpre
    hbadfresh hbadlen]
  rw [List.nil_append]

/-- Witness for C10 at concrete inputs: the first entry keeps the cache
written before the second entry's oversized index raised. -/
theorem retrieve_no_rollback_witness :
    retrieve cryptoW senderW (some reqW)
      ([⟨idxW, valW, none⟩] ++ ⟨idxLongW, val2W, none⟩ :: []) noncesW =
      (.error .badScalarLength,
       [⟨idxW, valW, none⟩].map (processedEntry senderW.senderOTU) ++
         ⟨idxLongW, val2W, none⟩ :: []) :=
  retrieve_no_rollback cryptoW senderW reqW [⟨idxW, valW, none⟩] []
    ⟨idxLongW, val2W, none⟩ noncesW (by decide) (by decide) (by decide)
    (by decide) rfl (by decide)

/-- C4 (amended): `decryptResponse` does not consume per-request secrets.
The method never assigns to `__otSecrets`, so the Receiver state after any
call — matching cipher map or not, success or failure — equals the state
before it, and the secret stored for the chosen index remains stored. -/
theorem decryptResponse_preserves_otSecrets (cr : Crypto) (r : Receiver)
    (ciphers : Dict Bytes) :
    ((decryptResponse cr r ciphers).2).otSecrets = r.otSecrets := rfl

/-- C4 counterexample: after a successful `decryptResponse` on the matching
cipher map, the per-request secret for the chosen index is still present in
`otSecrets` — it is not destroyed. -/
theorem decrypt_keeps_secret_counterexample :
    okValue (decryptResponse cryptoW recv1W ciphersW).1 = some [(idxW, valW)] ∧
    dictLookup ((decryptResponse cryptoW recv1W ciphersW).2).otSecrets idxW =
      some (clampP xW * clampP yW) := by
  constructor
  · decide
  · decide

/-- Inversion for `scalarmult` on a valid point: a successful result is the
clamped product. -/
theorem scalarmult_ok_val (sB : Bytes) (P x : Point)
    (h : scalarmult sB (some P) = .ok x) : x = clampP sB * P := by
  by_cases hl : sB.length = 32
  · by_cases hP : P = 0
    · simp [scalarmult, hl, hP] at h
    · rw [scalarmult_ok sB P hl hP] at h
      injection h with h
      exact h.symm
  · simp [scalarmult, hl] at h

/-- Inversion for the entry-loop cache: a successful `getOTU` returns
exactly `otuVal`. -/
theorem getOTU_ok_val (U : Point) (e : Entry) (x : Point)
    (h : getOTU U e = .ok x) : x = otuVal U e := by
  match he : e.indexOTU with
  | some v =>
    rw [getOTU, he] at h
    rw [otuVal, he]
    injection h with h
    exact h.symm
  | none =>
    rw [getOTU, he] at h
    rw [otuVal, he]
    by_cases hl : (padIndex e.index).length = 32
    · by_cases hU0 : U = 0
      · simp [scalarmult, hl, hU0] at h
      · rw [scalarmult_ok _ U hl hU0] at h
        injection h with h
        exact h.symm
    · simp [scalarmult, hl] at h

/-- Coverage of a successful entry loop: the returned cipher dict holds a
ciphertext under every pending entry's response index, and whatever the
accumulator already answered it still answers. -/
theorem retrieveLoop_ok_coverage (cr : Crypto) (T U : Point)
    (nonces : Nat → Bytes) :
    ∀ (pending : List Entry) (i : Nat) (acc : Dict Bytes) (done : List Entry)
      (C : Dict Bytes),
      (retrieveLoop cr T U nonces pending i acc done).1 = .ok C →
      (∀ e ∈ pending, (dictLookup C (respIndex cr T U e)).isSome = true) ∧
      (∀ k, (dictLookup acc k).isSome = true → (dictLookup C k).isSome = true) := by
  intro pending
  induction pending with
  | nil =>
    intro i acc done C h
    rw [retrieveLoop] at h
    injection h with h
    subst h
    exact ⟨fun e he => absurd he (List.not_mem_nil e), fun k hk => hk⟩
  | cons e rest ih =>
    intro i acc done C h
    rw [retrieveLoop] at h
    cases hot : getOTU U e with
    | error err =>
      rw [hot] at h
      simp at h
    | ok otu =>
      have hval := getOTU_ok_val U e otu hot
      subst hval
      rw [hot] at h
      dsimp only at h
      obtain ⟨h1, h2⟩ := ih (i + 1) _ _ C h
      constructor
      · intro e1 he1
        rcases List.mem_cons.mp he1 with rfl | hmem
        · refine h2 (respIndex cr T U e1) ?_
          have h3 := dictLookup_insert_self acc (respIndex cr T U e1)
            (cr.sealBox (cr.encodePoint (keyOf T U e1)) (nonces i) e1.value)
          exact (by rw [h3]; rfl :
            (dictLookup (dictInsert acc (respIndex cr T U e1)
              (cr.sealBox (cr.encodePoint (keyOf T U e1)) (nonces i) e1.value))
              (respIndex cr T U e1)).isSome = true)
        · exact h1 e1 hmem
      · exact fun k hk => h2 k (dictLookup_insert_isSome _ _ _ _ hk)

/-- Coverage of a successful decryption loop: the returned mapping answers
every stored index, and whatever the accumulator answered persists. -/
theorem decryptLoop_coverage (cr : Crypto) (ciphers : Dict Bytes) :
    ∀ (secrets : Dict Point) (acc D : Dict Bytes),
      decryptLoop cr ciphers secrets acc = .ok D →
      (∀ p ∈ secrets, (dictLookup D p.1).isSome = true) ∧
      (∀ k, (dictLookup acc k).isSome = true → (dictLookup D k).isSome = true) := by
  intro secrets
  induction secrets with
  | nil =>
    intro acc D h
    rw [decryptLoop] at h
    injection h with h
    subst h
    exact ⟨fun p hp => absurd hp (List.not_mem_nil p), fun k hk => hk⟩
  | cons p rest ih =>
    intro acc D h
    obtain ⟨idx, q⟩ := p
    rw [decryptLoop] at h
    cases hlk : dictLookup ciphers
        (if CONCEAL_RESPONSE_INDICES = true then calcMac cr idx (cr.encodePoint q)
         else idx) with
    | none =>
      rw [hlk] at h
      simp at h
    | some c =>
      rw [hlk] at h
      dsimp only at h
      cases hob : cr.openBox (cr.encodePoint q) c with
      | none =>
        rw [hob] at h
        simp at h
      | some m =>
        rw [hob] at h
        obtain ⟨h1, h2⟩ := ih _ D h
        refine ⟨?_, fun k hk => h2 k (dictLookup_insert_isSome _ _ _ _ hk)⟩
        intro p1 hp1
        rcases List.mem_cons.mp hp1 with rfl | hmem
        · refine h2 idx ?_
          rw [dictLookup_insert_self]
          rfl
        · exact h1 p1 hmem

/-- C5: all-or-nothing behaviour of `retrieve` and `decryptResponse`.  By
construction of the result type an error exits the call with no map at all;
the substantive half proved here is that a *successful* return is complete:
a cipher map returned by `retrieve` holds a ciphertext under every entry's
response index, and a mapping returned by `decryptResponse` holds a
plaintext for every stored secret — so the caller receives either an error
or the full output, never a partially-filled map. -/
theorem all_or_nothing (cr : Crypto) (s : Sender) (R : Point) (E : List Entry)
    (nonces : Nat → Bytes) (r : Receiver) (ciphers : Dict Bytes) :
    (∀ C, (retrieve cr s (some R) E nonces).1 = .ok C →
      ∀ e ∈ E, (dictLookup C
        (respIndex cr (clampP s.senderOTSecret * R) s.senderOTU e)).isSome = true) ∧
    (∀ D, (decryptResponse cr r ciphers).1 = .ok D →
      ∀ p ∈ r.otSecrets, (dictLookup D p.1).isSome = true) := by
  constructor
  · intro C hC e he
    rw [retrieve] at hC
    cases hsm : scalarmult s.senderOTSecret (some R) with
    | error err =>
      rw [hsm] at hC
      simp at hC
    | ok T =>
      have hT := scalarmult_ok_val s.senderOTSecret R T hsm
      subst hT
      rw [hsm] at hC
      exact (retrieveLoop_ok_coverage cr _ s.senderOTU nonces E 0 [] [] C hC).1 e he
  · intro D hD p hp
    exact (decryptLoop_coverage cr ciphers r.otSecrets [] D hD).1 p hp

/-- Witness for C5 at concrete inputs: the successful concrete `retrieve`
and `decryptResponse` runs cover their entry, respectively their stored
secret. -/
theorem all_or_nothing_witness :
    (dictLookup ciphersW (respIndex cryptoW (clampP yW * reqW)
      (clampP yW * clampP yW) ⟨idxW, valW, none⟩)).isSome = true ∧
    (dictLookup decW idxW).isSome = true := by
  constructor
  · exact (all_or_nothing cryptoW senderW reqW [⟨idxW, valW, none⟩] noncesW
      recv1W ciphersW).1 ciphersW rfl ⟨idxW, valW, none⟩ (by decide)
  · exact (all_or_nothing cryptoW senderW reqW [⟨idxW, valW, none⟩] noncesW
      recv1W ciphersW).2 decW rfl (idxW, clampP xW * clampP yW) (by decide)

/-- The entry loop changes caller entries only by caching `indexOTU`: on
any outcome the output entry list extends `done` by entries that agree with
the input on `index` and `value` and keep an already present `indexOTU`. -/
theorem retrieveLoop_mutation (cr : Crypto) (T U : Point) (nonces : Nat → Bytes) :
    ∀ (pending : List Entry) (i : Nat) (C : Dict Bytes) (done : List Entry),
      ∃ out, (retrieveLoop cr T U nonces pending i C done).2 = done ++ out ∧
        List.Forall₂ (fun a b => b.index = a.index ∧ b.value = a.value ∧
          (a.indexOTU.isSome = true → b.indexOTU = a.indexOTU)) pending out := by
  intro pending
  induction pending with
  | nil =>
    intro i C done
    exact ⟨[], by simp [retrieveLoop], List.Forall₂.nil⟩
  | cons e rest ih =>
    intro i C done
    cases hot : getOTU U e with
    | error err =>
      refine ⟨e :: rest, by rw [retrieveLoop, hot], ?_⟩
      refine List.Forall₂.cons ⟨rfl, rfl, fun _ => rfl⟩ ?_
      rw [List.forall₂_same]
      exact fun x _ => ⟨rfl, rfl, fun _ => rfl⟩
    | ok otu =>
      have hstep : retrieveLoop cr T U nonces (e :: rest) i C done =
          retrieveLoop cr T U nonces rest (i + 1)
            (dictInsert C
              (if CONCEAL_RESPONSE_INDICES = true then
                calcMac cr e.index (cr.encodePoint (T - otu)) else e.index)
              (cr.sealBox (cr.encodePoint (T - otu)) (nonces i) e.value))
            (done ++ [⟨e.index, e.value, some otu⟩]) := by
        rw [retrieveLoop, hot]
      rw [hstep]
      obtain ⟨out, hout, hrel⟩ := ih (i + 1)
        (dictInsert C
          (if CONCEAL_RESPONSE_INDICES = true then
            calcMac cr e.index (cr.encodePoint (T - otu)) else e.index)
          (cr.sealBox (cr.encodePoint (T - otu)) (nonces i) e.value))
        (done ++ [⟨e.index, e.value, some otu⟩])
      refine ⟨⟨e.index, e.value, some otu⟩ :: out, by rw [hout]; simp, ?_⟩
      refine List.Forall₂.cons ⟨rfl, rfl, ?_⟩ hrel
      intro hsome
      match hv : e.indexOTU with
      | some v =>
        rw [getOTU, hv] at hot
        injection hot with hot
        rw [hot]
      | none =>
        rw [hv] at hsome
        cases hsome

/-- C6: Sender state invariance.  The three values of a Sender built from
randomness `y` are jointly consistent (`S = clamp(y)·B`, `U = clamp(y)·S`)
and, the model functions being read-only in the Sender, fixed for the
instance's lifetime; `register` returns that same `S` on every call; and
`retrieve` — whatever its outcome — changes the caller's entries in no way
other than caching `indexOTU`: indices and values are untouched, and an
already present cache is kept. -/
theorem sender_state_invariants (cr : Crypto) (y : Bytes) (s : Sender)
    (req : Option Point) (E : List Entry) (nonces : Nat → Bytes)
    (hy : y.length = 32) (hs : mkSender y = .ok s) :
    s.senderOTSecret = y ∧
    s.senderOTKey = clampP y ∧
    s.senderOTU = clampP y * s.senderOTKey ∧
    register s = s.senderOTKey ∧
    List.Forall₂ (fun a b => b.index = a.index ∧ b.value = a.value ∧
      (a.indexOTU.isSome = true → b.indexOTU = a.indexOTU))
      E ((retrieve cr s req E nonces).2) := by
  rw [mkSender_eq y hy] at hs
  injection hs with hs
  subst hs
  refine ⟨rfl, rfl, rfl, rfl, ?_⟩
  rw [retrieve]
  dsimp only
  cases hsm : scalarmult y req with
  | error err =>
    rw [List.forall₂_same]
    exact fun x _ => ⟨rfl, rfl, fun _ => rfl⟩
  | ok T =>
    dsimp only
    obtain ⟨out, hout, hrel⟩ :=
      retrieveLoop_mutation cr T (clampP y * clampP y) nonces E 0 [] []
    rw [hout, List.nil_append]
    exact hrel

/-- Witness for C6 at concrete inputs. -/
theorem sender_state_invariants_witness :
    senderW.senderOTSecret = yW ∧
    senderW.senderOTKey = clampP yW ∧
    senderW.senderOTU = clampP yW * senderW.senderOTKey ∧
    register senderW = senderW.senderOTKey ∧
    List.Forall₂ (fun (a b : Entry) => b.index = a.index ∧ b.value = a.value ∧
      (a.indexOTU.isSome = true → b.indexOTU = a.indexOTU))
      [⟨idxW, valW, none⟩]
      ((retrieve cryptoW senderW (some reqW) [⟨idxW, valW, none⟩] noncesW).2) :=
  sender_state_invariants cryptoW yW senderW (some reqW) [⟨idxW, valW, none⟩]
    noncesW (by decide) rfl

/-- C7: concealed response-index agreement.  With concealment enabled (the
module constant is `True`), every entry's response index produced by the
entry loop is the keyed hash of the entry's UTF-8 index under the 32-byte
point encoding of the per-entry key, and for the chosen entry that response
index equals the lookup key `decryptResponse` computes from the stored
secret — so a cipher map returned by `retrieve` answers it. -/
theorem conceal_response_index_agreement (cr : Crypto) (y sk idx : Bytes)
    (E : List Entry) (nonces : Nat → Bytes) (estar : Entry)
    (hest : estar ∈ E) (hfresh : estar.indexOTU = none)
    (hestidx : estar.index = idx) :
    CONCEAL_RESPONSE_INDICES = true ∧
    (∀ e : Entry,
      respIndex cr (clampP y * (clampP (padIndex idx) * clampP y + clampP sk))
        (clampP y * clampP y) e =
      calcMac cr e.index (cr.encodePoint
        (keyOf (clampP y * (clampP (padIndex idx) * clampP y + clampP sk))
          (clampP y * clampP y) e))) ∧
    respIndex cr (clampP y * (clampP (padIndex idx) * clampP y + clampP sk))
        (clampP y * clampP y) estar =
      calcMac cr idx (cr.encodePoint (clampP sk * clampP y)) ∧
    (∀ C, (retrieve cr ⟨y, clampP y, clampP y * clampP y⟩
        (some (clampP (padIndex idx) * clampP y + clampP sk)) E nonces).1 = .ok C →
      (dictLookup C (calcMac cr idx (cr.encodePoint (clampP sk * clampP y)))).isSome
        = true) := by
  have h2 : ∀ e : Entry,
      respIndex cr (clampP y * (clampP (padIndex idx) * clampP y + clampP sk))
        (clampP y * clampP y) e =
      calcMac cr e.index (cr.encodePoint
        (keyOf (clampP y * (clampP (padIndex idx) * clampP y + clampP sk))
          (clampP y * clampP y) e)) :=
    fun e => by rw [respIndex, if_pos conceal_true]
  have hkeyQ : keyOf (clampP y * (clampP (padIndex idx) * clampP y + clampP sk))
      (clampP y * clampP y) estar = clampP sk * clampP y := by
    simp only [keyOf, otuVal, hfresh, hestidx]
    ring
  have h3 : respIndex cr (clampP y * (clampP (padIndex idx) * clampP y + clampP sk))
      (clampP y * clampP y) estar =
      calcMac cr idx (cr.encodePoint (clampP sk * clampP y)) := by
    rw [h2 estar, hestidx, hkeyQ]
  refine ⟨rfl, h2, h3, ?_⟩
  intro C hC
  rw [retrieve] at hC
  dsimp only at hC
  cases hsm : scalarmult y (some (clampP (padIndex idx) * clampP y + clampP sk)) with
  | error err =>
    rw [hsm] at hC
    simp at hC
  | ok T =>
    have hT := scalarmult_ok_val y _ T hsm
    subst hT
    rw [hsm] at hC
    have hcov := (retrieveLoop_ok_coverage cr _ (clampP y * clampP y) nonces E 0 []
      [] C hC).1 estar hest
    rw [h3] at hcov
    exact hcov

/-- Witness for C7 at concrete inputs. -/
theorem conceal_response_index_agreement_witness :
    CONCEAL_RESPONSE_INDICES = true ∧
    (∀ e : Entry,
      respIndex cryptoW (clampP yW * (clampP (padIndex idxW) * clampP yW + clampP xW))
        (clampP yW * clampP yW) e =
      calcMac cryptoW e.index (cryptoW.encodePoint
        (keyOf (clampP yW * (clampP (padIndex idxW) * clampP yW + clampP xW))
          (clampP yW * clampP yW) e))) ∧
    respIndex cryptoW (clampP yW * (clampP (padIndex idxW) * clampP yW + clampP xW))
        (clampP yW * clampP yW) ⟨idxW, valW, none⟩ =
      calcMac cryptoW idxW (cryptoW.encodePoint (clampP xW * clampP yW)) ∧
    (∀ C, (retrieve cryptoW ⟨yW, clampP yW, clampP yW * clampP yW⟩
        (some (clampP (padIndex idxW) * clampP yW + clampP xW))
        [⟨idxW, valW, none⟩] noncesW).1 = .ok C →
      (dictLookup C (calcMac cryptoW idxW
        (cryptoW.encodePoint (clampP xW * clampP yW)))).isSome = true) :=
  conceal_response_index_agreement cryptoW yW xW idxW [⟨idxW, valW, none⟩] noncesW
    ⟨idxW, valW, none⟩ (by decide) rfl rfl

/-- C8: deterministic `indexOTU` caching.  For a fixed Sender and a fixed
index the cached value is unique: a fresh entry receives the cache
`clamp(pad(index))·U` computed from the Sender's long-term key alone, an
entry that already carries a cache keeps it without recomputation, and a
second `retrieve` over the already processed entries (any request key, any
nonces) leaves every cache unchanged. -/
theorem indexOTU_deterministic (cr cr2 : Crypto) (s : Sender) (R R2 : Point)
    (E : List Entry) (nonces nonces2 : Nat → Bytes)
    (hlen : s.senderOTSecret.length = 32) (hR : R ≠ 0) (hR2 : R2 ≠ 0)
    (hU : s.senderOTU ≠ 0)
    (h : ∀ e ∈ E, e.indexOTU = none → e.index.length ≤ 32) :
    ((retrieve cr s (some R) E nonces).2 = E.map (processedEntry s.senderOTU)) ∧
    (∀ e ∈ E, e.indexOTU = none →
      (processedEntry s.senderOTU e).indexOTU =
        some (clampP (padIndex e.index) * s.senderOTU)) ∧
    (∀ e ∈ E, ∀ v, e.indexOTU = some v →
      (processedEntry s.senderOTU e).indexOTU = some v) ∧
    ((retrieve cr2 s (some R2) ((retrieve cr s (some R) E nonces).2) nonces2).2 =
      (retrieve cr s (some R) E nonces).2) := by
  have h1 := retrieve_ok cr s R E nonces hlen hR hU h
  refine ⟨by rw [h1], ?_, ?_, ?_⟩
  · intro e he hf
    simp [processedEntry, otuVal, hf]
  · intro e he v hv
    simp [processedEntry, otuVal, hv]
  · rw [h1]
    dsimp only
    have hproc : ∀ e' ∈ E.map (processedEntry s.senderOTU),
        e'.indexOTU = none → e'.index.length ≤ 32 := by
      intro e' he' hnone
      obtain ⟨e, _, rfl⟩ := List.mem_map.mp he'
      cases hnone
    rw [retrieve_ok cr2 s R2 (E.map (processedEntry s.senderOTU)) nonces2 hlen
      hR2 hU hproc]
    dsimp only
    rw [List.map_map]
    exact List.map_congr_left (fun e _ => rfl)

/-- Witness for C8 at concrete inputs: one fresh and one pre-cached entry. -/
theorem indexOTU_deterministic_witness :
    ((retrieve cryptoW senderW (some reqW)
        [⟨idxW, valW, none⟩, ⟨[98], val2W, some 1⟩] noncesW).2 =
      [⟨idxW, valW, none⟩, ⟨[98], val2W, some 1⟩].map
        (processedEntry senderW.senderOTU)) ∧
    (∀ e ∈ [⟨idxW, valW, none⟩, ⟨([98] : Bytes), val2W, some 1⟩],
      e.indexOTU = none →
      (processedEntry senderW.senderOTU e).indexOTU =
        some (clampP (padIndex e.index) * senderW.senderOTU)) ∧
    (∀ e ∈ [⟨idxW, valW, none⟩, ⟨([98] : Bytes), val2W, some 1⟩],
      ∀ v, e.indexOTU = some v →
      (processedEntry senderW.senderOTU e).indexOTU = some v) ∧
    ((retrieve cryptoW senderW (some reqW)
        ((retrieve cryptoW senderW (some reqW)
          [⟨idxW, valW, none⟩, ⟨[98], val2W, some 1⟩] noncesW).2) noncesW).2 =
      (retrieve cryptoW senderW (some reqW)
        [⟨idxW, valW, none⟩, ⟨[98], val2W, some 1⟩] noncesW).2) :=
  indexOTU_deterministic cryptoW cryptoW senderW reqW reqW
    [⟨idxW, valW, none⟩, ⟨[98], val2W, some 1⟩] noncesW noncesW
    (by decide) (by decide) (by decide) (by decide) (by decide)

/-- A key that is no entry's response index and absent from the accumulator
is absent from the cipher dict a successful entry loop returns. -/
theorem retrieveLoop_ok_absent (cr : Crypto) (T U : Point) (nonces : Nat → Bytes) :
    ∀ (pending : List Entry) (i : Nat) (acc : Dict Bytes) (done : List Entry)
      (C : Dict Bytes) (kstar : Bytes),
      (retrieveLoop cr T U nonces pending i acc done).1 = .ok C →
      (∀ e ∈ pending, respIndex cr T U e ≠ kstar) →
      dictLookup acc kstar = none →
      dictLookup C kstar = none := by
  intro pending
  induction pending with
  | nil =>
    intro i acc done C kstar h habs hacc
    rw [retrieveLoop] at h
    injection h with h
    subst h
    exact hacc
  | cons e rest ih =>
    intro i acc done C kstar h habs hacc
    rw [retrieveLoop] at h
    cases hot : getOTU U e with
    | error err =>
      rw [hot] at h
      simp at h
    | ok otu =>
      have hval := getOTU_ok_val U e otu hot
      subst hval
      rw [hot] at h
      dsimp only at h
      refine ih (i + 1) _ _ C kstar h
        (fun e1 he1 => habs e1 (List.mem_cons_of_mem e he1)) ?_
      have hne : respIndex cr T U e ≠ kstar := habs e (List.mem_cons_self e rest)
      have h4 := dictLookup_insert_ne acc (respIndex cr T U e) kstar
        (cr.sealBox (cr.encodePoint (keyOf T U e)) (nonces i) e.value) hne
      exact (by rw [h4]; exact hacc :
        dictLookup (dictInsert acc (respIndex cr T U e)
          (cr.sealBox (cr.encodePoint (keyOf T U e)) (nonces i) e.value)) kstar = none)

/-- C9: same-index re-request overwrites.  A second `getRequestOTKey` call
for an index already present in `otSecrets` replaces the stored shared
secret (the dict assignment overwrites in place), so `otSecrets` holds
exactly one secret per distinct index — the most recent; and a cipher map
the Sender produced against the earlier request key can no longer be
decrypted for that index: the lookup key computed from the new secret
matches no response index of that map, so `decryptResponse` fails with the
`KeyError` the spec calls `NoMatchingCipher`.  Distinctness of the two
stored secrets and injectivity of hash and point encoding are explicit
hypotheses, idealising fresh randomness and collision resistance. -/
theorem rerequest_overwrites (cr : Crypto) (y sk1 sk2 idx : Bytes)
    (E : List Entry) (nonces : Nat → Bytes)
    (hmac : MacInjective cr) (henc : Function.Injective cr.encodePoint)
    (hy : y.length = 32) (hsk1 : sk1.length = 32) (hsk2 : sk2.length = 32)
    (hidx : idx.length ≤ 32)
    (hfresh : ∀ e ∈ E, e.indexOTU = none)
    (hQ : clampP sk1 * clampP y ≠ clampP sk2 * clampP y) :
    ((getRequestOTKey (mkReceiver (some (clampP y))) idx sk1).2).otSecrets
      = [(idx, clampP sk1 * clampP y)] ∧
    ((getRequestOTKey
        ((getRequestOTKey (mkReceiver (some (clampP y))) idx sk1).2)
        idx sk2).2).otSecrets
      = [(idx, clampP sk2 * clampP y)] ∧
    (∀ C, (retrieve cr ⟨y, clampP y, clampP y * clampP y⟩
        (some (clampP (padIndex idx) * clampP y + clampP sk1)) E nonces).1 = .ok C →
      (decryptResponse cr
        ((getRequestOTKey
          ((getRequestOTKey (mkReceiver (some (clampP y))) idx sk1).2)
          idx sk2).2) C).1 =
        .error (.keyError (calcMac cr idx
          (cr.encodePoint (clampP sk2 * clampP y))))) := by
  have hr1 := getRequestOTKey_ok (mkReceiver (some (clampP y))) idx sk1 (clampP y)
    hsk1 hidx rfl (clampP_ne_zero y)
  have hs1 : ((getRequestOTKey (mkReceiver (some (clampP y))) idx sk1).2) =
      ⟨some (clampP y), [(idx, clampP sk1 * clampP y)]⟩ := by
    rw [hr1]
    rfl
  have hs2 : ((getRequestOTKey
      (⟨some (clampP y), [(idx, clampP sk1 * clampP y)]⟩ : Receiver) idx sk2).2) =
      ⟨some (clampP y), [(idx, clampP sk2 * clampP y)]⟩ := by
    rw [getRequestOTKey_ok _ idx sk2 (clampP y) hsk2 hidx rfl (clampP_ne_zero y)]
    simp [dictInsert]
  refine ⟨by rw [hs1], by rw [hs1, hs2], ?_⟩
  intro C hC
  rw [hs1, hs2]
  rw [retrieve] at hC
  dsimp only at hC
  by_cases hR1 : clampP (padIndex idx) * clampP y + clampP sk1 = 0
  · rw [scalarmult, if_pos hy, hR1, if_pos rfl] at hC
    simp at hC
  · rw [scalarmult_ok y _ hy hR1] at hC
    have habs : ∀ e ∈ E,
        respIndex cr (clampP y * (clampP (padIndex idx) * clampP y + clampP sk1))
          (clampP y * clampP y) e ≠
        calcMac cr idx (cr.encodePoint (clampP sk2 * clampP y)) := by
      intro e he heq
      rw [respIndex, if_pos conceal_true] at heq
      obtain ⟨hi, hk⟩ := hmac _ _ _ _ heq
      have hkey := henc hk
      rw [keyOf, otuVal, hfresh e he, hi] at hkey
      apply hQ
      rw [← hkey]
      ring
    have hnone := retrieveLoop_ok_absent cr _ _ nonces E 0 [] [] C
      (calcMac cr idx (cr.encodePoint (clampP sk2 * clampP y))) hC habs rfl
    rw [decryptResponse]
    dsimp only
    rw [decryptLoop, if_pos conceal_true, hnone]

/-- Witness for C9 at concrete inputs: request twice for `idxW` with
distinct randomness, then fail to decrypt the cipher map built against the
first request. -/
theorem rerequest_overwrites_witness :
    ((getRequestOTKey (mkReceiver (some (clampP yW))) idxW xW).2).otSecrets
      = [(idxW, clampP xW * clampP yW)] ∧
    ((getRequestOTKey ((getRequestOTKey (mkReceiver (some (clampP yW))) idxW xW).2)
        idxW x2W).2).otSecrets = [(idxW, clampP x2W * clampP yW)] ∧
    (decryptResponse cryptoW
        ((getRequestOTKey ((getRequestOTKey (mkReceiver (some (clampP yW))) idxW xW).2)
          idxW x2W).2) ciphersW).1 =
      .error (.keyError (calcMac cryptoW idxW
        (cryptoW.encodePoint (clampP x2W * clampP yW)))) := by
  obtain ⟨h1, h2, h3⟩ := rerequest_overwrites cryptoW yW xW x2W idxW
    [⟨idxW, valW, none⟩] noncesW cryptoW_macInjective cryptoW_encodeInjective
    (by decide) (by decide) (by decide) (by decide) (by decide) (by decide)
  exact ⟨h1, h2, h3 ciphersW rfl⟩

end TONoo1
